import Mathlib

/-!
Verification of the OPM EclIO grid and summary readers (EGrid / ESmry).

The definitions below are a shallow embedding of the C++ code in
`src/opm/io/eclipse/EGrid.cpp` (which contains both the `EGrid` and the
`ESmry` implementation).  Machine integers are modelled as `Int`/`Nat`
(all quantities involved stay far below 2^31, and C++ `/` and `%` on the
nonnegative operands that occur here agree with Lean's `Int` `/` and `%`),
`float` payloads are modelled as abstract values in `Int` (reading and
writing flips endianness symmetrically, which is observationally the
identity on values), `double` coordinate arithmetic is modelled exactly in
`Rat`, and code paths that throw are modelled with `Option`/`Except`.
-/

namespace OpmVerify

/-! ### EGrid: global/active index mappings (`EGrid.cpp` lines 284-341) -/

/-- `EGrid::global_index(i,j,k)`: bounds check then `i + j*nx + k*nx*ny`.
`none` models the thrown `std::invalid_argument("i, j or/and k out of range")`. -/
def global_index (nx ny nz : ℕ) (i j k : ℤ) : Option ℤ :=
  if i < 0 ∨ (nx : ℤ) ≤ i ∨ j < 0 ∨ (ny : ℤ) ≤ j ∨ k < 0 ∨ (nz : ℤ) ≤ k then
    none
  else
    some (i + j * (nx : ℤ) + k * ((nx : ℤ) * (ny : ℤ)))

/-- `EGrid::ijk_from_global_index(g)`: bounds check, then
`k = g/(nx*ny); rest = g%(nx*ny); j = rest/nx; i = rest%nx`.
The result triple is `(i, j, k)`. -/
def ijk_from_global_index (nx ny nz : ℕ) (g : ℤ) : Option (ℤ × ℤ × ℤ) :=
  if g < 0 ∨ ((nx * ny * nz : ℕ) : ℤ) ≤ g then
    none
  else
    some ((g % ((nx : ℤ) * (ny : ℤ))) % (nx : ℤ),
          (g % ((nx : ℤ) * (ny : ℤ))) / (nx : ℤ),
          g / ((nx : ℤ) * (ny : ℤ)))

/-! ### EGrid: active-cell maps built from ACTNUM (`EGrid.cpp` lines 161-179) -/

/-- The ACTNUM scan of the `EGrid` constructor: walking `actnum` with the
running global index `i` and running active counter `nact`, it appends
`nact` to `act_index` and `i` to `glob_index` for `actnum[i] > 0`, and
appends `-1` to `act_index` otherwise.  Returns
`(act_index, glob_index, nactive)`. -/
def actScan : List ℤ → ℕ → ℕ → List ℤ × List ℕ × ℕ
  | [], _, nact => ([], [], nact)
  | a :: rest, i, nact =>
    if 0 < a then
      let r := actScan rest (i + 1) (nact + 1)
      ((nact : ℤ) :: r.1, i :: r.2.1, r.2.2)
    else
      let r := actScan rest (i + 1) nact
      ((-1 : ℤ) :: r.1, r.2.1, r.2.2)

/-- Active maps for a grid that has an ACTNUM record. -/
def buildActiveMaps (actnum : List ℤ) : List ℤ × List ℕ × ℕ :=
  actScan actnum 0 0

/-- Active maps when ACTNUM is absent: `std::iota` on both vectors of size
`nx*ny*nz` (`EGrid.cpp` lines 173-179). -/
def identityActiveMaps (nCells : ℕ) : List ℤ × List ℕ :=
  ((List.range nCells).map (fun n => Int.ofNat n), List.range nCells)

/-! ### EGrid: pillar interpolation in `getCellCorners`
(`EGrid.cpp` lines 395-427, non-radial branch), in exact arithmetic -/

/-- One pillar of `EGrid::getCellCorners`: top sample `(xt, yt, zt)`, bottom
sample `(xb, yb, zb)`, requested depth `z`; the code computes
`X = xt + (xb-xt) / (zt-zb) * (zt - z)` (same for `Y`) and short-circuits
degenerate pillars with `zt == zb`. -/
def pillarInterpXY (xt yt zt xb yb zb z : ℚ) : ℚ × ℚ :=
  if zt = zb then
    (xt, yt)
  else
    (xt + (xb - xt) / (zt - zb) * (zt - z),
     yt + (yb - yt) / (zt - zb) * (zt - z))

/-! ### ESmry: ministep gap check (`EGrid.cpp` lines 1330-1340) -/

/-- `ESmry::all_steps_available` after `mini_steps` has been filled from
disk: scans consecutive ministep values and returns `false` as soon as a
gap `mini_steps[n] - mini_steps[n-1] > 1` is seen. -/
def all_steps_available : List ℤ → Bool
  | a :: b :: rest => if 1 < b - a then false else all_steps_available (b :: rest)
  | _ => true

/-! ### ESmry: constructor extension check (`EGrid.cpp` lines 779-791) -/

/-- Position of the last `'.'` in a list of characters, scanning with the
running index `i` and the best match so far in `acc`. -/
def lastDotPosAux : List Char → ℕ → Option ℕ → Option ℕ
  | [], _, acc => acc
  | c :: cs, i, acc => lastDotPosAux cs (i + 1) (if c = '.' then some i else acc)

/-- Position of the last `'.'` in a list of characters. -/
def lastDotPos (cs : List Char) : Option ℕ :=
  lastDotPosAux cs 0 none

/-- `std::filesystem::path::extension()` for a plain filename: empty for
`"."`/`".."`, otherwise the suffix starting at the last dot provided that
dot is not the leading character (a leading dot marks a hidden file, not
an extension). -/
def extensionOf (s : String) : String :=
  if s = "." ∨ s = ".." then ""
  else
    match lastDotPos s.data with
    | some p => if 0 < p then String.mk (s.data.drop p) else ""
    | none => ""

/-- The extension handling at the top of the `ESmry` constructor: an
extension-less name gets `".SMSPEC"` appended, anything other than
`".SMSPEC"`/`".FSMSPEC"` then throws `std::invalid_argument`, and the
`formatted` flag is `ext == ".SMSPEC" ? false : true`.  Returns the final
file name together with the `formatted` flag. -/
def esmrySetup (filename : String) : Except String (String × Bool) :=
  let f := if extensionOf filename = "" then filename ++ ".SMSPEC" else filename
  if extensionOf f ≠ ".SMSPEC" ∧ extensionOf f ≠ ".FSMSPEC" then
    Except.error "Input file should have extension .SMSPEC or .FSMSPEC"
  else
    Except.ok (f, if extensionOf f = ".SMSPEC" then false else true)

/-! ### ESmry: key synthesis (`EGrid.cpp` lines 1843-1968) -/

/-- LGR qualifier carried by a summary vector (`Opm::EclIO::lgr_info`). -/
structure LgrInfo where
  name : String
  ijk : ℤ × ℤ × ℤ
deriving DecidableEq

/-- Modelled from the spec: `splitSummaryNumber` is implemented in
`EclUtil.cpp`, which is not part of `src/`; §4.4 of the spec states that a
region-to-region NUMS packs `num = r1 + 32768·(r2 + 10)`, so the unpacking
is `r1 = num % 32768`, `r2 = num / 32768 - 10`. -/
def splitSummaryNumber (num : ℤ) : ℤ × ℤ :=
  (num % 32768, num / 32768 - 10)

/-- `ESmry::ijk_from_global_index` (`EGrid.cpp` lines 1843-1850): a 1-based
unpacking of the 1-based global cell number `globIn` against the summary
grid dimensions `nI`, `nJ`:
`glob -= 1; i = 1 + glob%nI; glob /= nI; j = 1 + glob%nJ; k = 1 + glob/nJ`. -/
def esmry_ijk_from_global_index (nI nJ : ℤ) (globIn : ℤ) : ℤ × ℤ × ℤ :=
  (1 + (globIn - 1) % nI,
   1 + ((globIn - 1) / nI) % nJ,
   1 + ((globIn - 1) / nI) / nJ)

/-- `std::string::substr(pos, len)` (total model via drop/take; the
keywords reaching the branches that use it are long enough that the
out-of-range throw of `substr` cannot fire). -/
def csub (s : String) (pos len : ℕ) : String :=
  String.mk ((s.data.drop pos).take len)

/-- The anonymous-namespace regex `is_well_completion`:
`W[OGWLV][PIGOLCF][RT]L([0-9_]{2}[0-9])?`, matched against the whole
keyword. -/
def isWellCompletion (kw : String) : Bool :=
  match kw.data with
  | [c0, c1, c2, c3, c4] =>
      c0 = 'W' && (c1 = 'O' || c1 = 'G' || c1 = 'W' || c1 = 'L' || c1 = 'V') &&
      (c2 = 'P' || c2 = 'I' || c2 = 'G' || c2 = 'O' || c2 = 'L' || c2 = 'C' || c2 = 'F') &&
      (c3 = 'R' || c3 = 'T') && c4 = 'L'
  | [c0, c1, c2, c3, c4, d1, d2, d3] =>
      c0 = 'W' && (c1 = 'O' || c1 = 'G' || c1 = 'W' || c1 = 'L' || c1 = 'V') &&
      (c2 = 'P' || c2 = 'I' || c2 = 'G' || c2 = 'O' || c2 = 'L' || c2 = 'C' || c2 = 'F') &&
      (c3 = 'R' || c3 = 'T') && c4 = 'L' &&
      (d1.isDigit || d1 = '_') && (d2.isDigit || d2 = '_') && d3.isDigit
  | _ => false

/-- `ESmry::makeKeyString` (`EGrid.cpp` lines 1853-1968).  `miscExc` stands
for `SummaryNode::miscellaneous_exception` (implemented in
`SummaryNode.cpp`, not part of `src/`), which only affects the `S` branch.
`none` models the `std::invalid_argument` thrown in the `L` branch when no
LGR info is present; every other path returns a string. -/
def makeKeyString (miscExc : String → Bool) (nI nJ : ℤ)
    (keywordArg wgname : String) (num : ℤ) (lgr : Option LgrInfo) : Option String :=
  let no_wgname := ":+:+:+:+"
  match keywordArg.data.head? with
  | none => some keywordArg
  | some first =>
    if first = 'A' then
      if num ≤ 0 then some "" else some (keywordArg ++ ":" ++ toString num)
    else if first = 'B' then
      if num ≤ 0 then some "" else
        let t := esmry_ijk_from_global_index nI nJ num
        some (keywordArg ++ ":" ++ toString t.1 ++ "," ++ toString t.2.1 ++ "," ++ toString t.2.2)
    else if first = 'C' then
      if num ≤ 0 then some "" else
        let t := esmry_ijk_from_global_index nI nJ num
        some (keywordArg ++ ":" ++ wgname ++ ":" ++
              toString t.1 ++ "," ++ toString t.2.1 ++ "," ++ toString t.2.2)
    else if first = 'G' then
      if wgname = no_wgname then some "" else some (keywordArg ++ ":" ++ wgname)
    else if first = 'L' then
      match lgr with
      | none => none
      | some lg =>
        match keywordArg.data.get? 1 with
        | some 'B' =>
            some (keywordArg ++ ":" ++ lg.name ++ ":" ++
                  toString lg.ijk.1 ++ "," ++ toString lg.ijk.2.1 ++ "," ++ toString lg.ijk.2.2)
        | some 'C' =>
            some (keywordArg ++ ":" ++ lg.name ++ ":" ++ wgname ++ ":" ++
                  toString lg.ijk.1 ++ "," ++ toString lg.ijk.2.1 ++ "," ++ toString lg.ijk.2.2)
        | some 'W' =>
            some (keywordArg ++ ":" ++ lg.name ++ ":" ++ wgname)
        | _ => some keywordArg
    else if first = 'R' then
      if num ≤ 0 then some "" else
        let str34 := csub keywordArg 2 2
        let str45 := csub keywordArg 3 2
        if keywordArg = "RORFR" then
          some (keywordArg ++ ":" ++ toString num)
        else if str34 = "FR" ∨ str34 = "FT" ∨ str45 = "FR" ∨ str45 = "FT" then
          let r := splitSummaryNumber num
          some (keywordArg ++ ":" ++ toString r.1 ++ "-" ++ toString r.2)
        else
          some (keywordArg ++ ":" ++ toString num)
    else if first = 'S' then
      if miscExc keywordArg then some keywordArg
      else if wgname = no_wgname then some ""
      else if num ≤ 0 then some ""
      else some (keywordArg ++ ":" ++ wgname ++ ":" ++ toString num)
    else if first = 'W' then
      if wgname = no_wgname then some ""
      else if isWellCompletion keywordArg then
        some (keywordArg ++ ":" ++ wgname ++ ":" ++ toString num)
      else some (keywordArg ++ ":" ++ wgname)
    else some keywordArg

/-! ### ESmry: `make_esmry_file` (`EGrid.cpp` lines 1712-1787) -/

/-- One record written to the compact ESMRY file. -/
inductive EsmryRec where
  | ints (name : String) (xs : List ℤ)
  | strs (name : String) (xs : List String)
  | reals (name : String) (xs : List ℤ)
deriving DecidableEq

/-- State of an `ESmry` instance as far as `make_esmry_file` observes it.
`esmryExists` abstracts `fileExists` on the target path (same directory and
root name as the input SMSPEC, extension replaced by `.ESMRY`), and
`vectorData` is the fully loaded data after the internal `loadData()`. -/
structure EsmryWriteState where
  loadBaseRunData : Bool
  esmryExists : Bool
  startVect : List ℤ
  restartRoot : String
  restartNum : ℤ
  keyword : List String
  units : List String
  nTstep : ℕ
  seqIndex : List ℕ
  miniSteps : List ℤ
  vectorData : List (List ℤ)

/-- The START date vector written by `make_esmry_file`: `start_vect` is
resized (zero padded) to at least 6 entries, the microsecond slot 5 is
split into seconds (kept in slot 5) and milliseconds (appended). -/
def startDateVect (sv : List ℤ) : List ℤ :=
  let v := if sv.length < 6 then sv ++ List.replicate (6 - sv.length) 0 else sv
  let usec := v.getD 5 0
  v.set 5 (usec / 1000000) ++ [(usec % 1000000) / 1000]

/-- The RSTEP vector: 1 for time steps whose index is in `seqIndex` (report
steps), 0 otherwise. -/
def isRstepVect (nSteps : ℕ) (seq : List ℕ) : List ℤ :=
  (List.range nSteps).map (fun i => if seq.contains i then 1 else 0)

/-- `ESmry::make_esmry_file`: throws (`Except.error`) when the instance was
built with `loadBaseRunData = true` (`fromSingleRun = !loadBaseRunData`),
returns `false` writing nothing when the target `.ESMRY` file exists, and
otherwise writes START, optional RESTART/RSTNUM, KEYCHECK, UNITS, RSTEP,
TSTEP and one `V{n}` record per vector and returns `true`. -/
def makeEsmryFile (s : EsmryWriteState) : Except String (Bool × List EsmryRec) :=
  if s.loadBaseRunData then
    Except.error "creating esmry file only possible when loadBaseRunData=false"
  else if s.esmryExists then
    Except.ok (false, [])
  else
    Except.ok (true,
      [EsmryRec.ints "START" (startDateVect s.startVect)]
      ++ (if s.restartRoot ≠ "" then
            [EsmryRec.strs "RESTART" [s.restartRoot], EsmryRec.ints "RSTNUM" [s.restartNum]]
          else [])
      ++ [EsmryRec.strs "KEYCHECK" s.keyword,
          EsmryRec.strs "UNITS" s.units,
          EsmryRec.ints "RSTEP" (isRstepVect s.nTstep s.seqIndex),
          EsmryRec.ints "TSTEP" s.miniSteps]
      ++ (List.range s.vectorData.length).map
           (fun n => EsmryRec.reals ("V" ++ toString n) (s.vectorData.getD n [])))

/-! ### On-disk block layout of a binary PARAMS record

Modelled from the spec: the block-size constants live in `EclUtil.hpp`,
which is not part of `src/`.  §4.1 and §6 of the spec fix the binary REAL
block at 1000 elements of 4 bytes, framed by a 4-byte header and a 4-byte
trailer both holding the payload byte count, so `MaxBlockSizeReal = 4000`
(bytes) and `sizeOfReal = sizeOfInte = 4`. -/

def sizeOfInte : ℕ := 4

def sizeOfReal : ℕ := 4

def maxBlockSizeReal : ℕ := 4000

/-- `MaxBlockSizeReal / sizeOfReal`, the number of REAL elements per block
(the code calls it `maxNumberOfElements`). -/
def maxRealsPerBlock : ℕ := maxBlockSizeReal / sizeOfReal

/-- One 4-byte unit of a binary array record: a block header flag, a data
element, or a block trailer flag.  Flags hold the payload byte count. -/
inductive EclCell where
  | head (bytes : ℕ)
  | data (v : ℤ)
  | tail (bytes : ℕ)
deriving DecidableEq

/-- Serialization of a REAL array into blocks of at most `maxRealsPerBlock`
elements, each framed by matching header/trailer flags (fuel-driven so that
it is structurally recursive; `serializeParams` supplies enough fuel). -/
def serGo : ℕ → List ℤ → List EclCell
  | _, [] => []
  | 0, _ :: _ => []
  | fuel + 1, x :: xs =>
    let blk := (x :: xs).take maxRealsPerBlock
    EclCell.head (sizeOfReal * blk.length)
      :: (blk.map EclCell.data
          ++ EclCell.tail (sizeOfReal * blk.length)
             :: serGo fuel ((x :: xs).drop maxRealsPerBlock))

/-- The on-disk cell sequence of a binary PARAMS record holding `xs`,
starting at the record's data position (`stepFilePos`). -/
def serializeParams (xs : List ℤ) : List EclCell :=
  serGo xs.length xs

/-- The byte offset (relative to `stepFilePos`) that
`ESmry::loadData(vectList)` seeks to for column `p` of a binary PARAMS
record (`EGrid.cpp` lines 1446-1448):
`((2*nFullBlocks) + 1)*sizeOfInte + p*sizeOfReal` with
`nFullBlocks = p / (MaxBlockSizeReal / sizeOfReal)`. -/
def paramSeekOffset (p : ℕ) : ℕ :=
  (2 * (p / maxRealsPerBlock) + 1) * sizeOfInte + p * sizeOfReal

/-- The byte offset stated by the claim, with `nFull = p / 250`. -/
def claimedParamSeekOffset (p : ℕ) : ℕ :=
  (2 * (p / 250) + 1) * 4 + p * 4

/-- Reading the 4-byte unit at byte offset `off` of a cell sequence. -/
def cellAtByte (cells : List EclCell) (off : ℕ) : Option EclCell :=
  cells.get? (off / 4)

/-- The per-key seek path's read of column `p`: seek to `paramSeekOffset p`
and read 4 bytes as a float.  Reading anything that is not a data cell is
modelled as `none` (it never happens at a valid column). -/
def seekReadParam (params : List ℤ) (p : ℕ) : Option ℤ :=
  match cellAtByte (serializeParams params) (paramSeekOffset p) with
  | some (EclCell.data v) => some v
  | _ => none

/-- Sequentially reading `n` data elements from a cell stream (the inner
`for` loop of the bulk reader); fails if the stream does not hold data
cells there. -/
def takeDataCells : ℕ → List EclCell → Option (List ℤ × List EclCell)
  | 0, cs => some ([], cs)
  | n + 1, EclCell.data v :: cs =>
      (takeDataCells n cs).map (fun pr => (v :: pr.1, pr.2))
  | _ + 1, _ => none

/-- The block-reading `while (rest > 0)` loop of `ESmry::loadData()`
(`EGrid.cpp` lines 1562-1597): read a header flag, derive
`num = dhead / sizeOfInte`, fail on `num > maxNumberOfElements`, read `num`
floats, fail on inconsistent element counts, then check the trailer flag
against the header.  `none` models the thrown `std::runtime_error`s.
Fuel-driven; `bulkReadParams` supplies enough fuel. -/
def bulkGo : ℕ → List EclCell → ℤ → Option (List ℤ)
  | 0, _, _ => none
  | fuel + 1, cells, rest =>
    if rest ≤ 0 then some []
    else
      match cells with
      | EclCell.head dhead :: cs =>
        let num := dhead / sizeOfInte
        if maxRealsPerBlock < num then none
        else
          match takeDataCells num cs with
          | none => none
          | some (vs, r) =>
            let rest2 := rest - (num : ℤ)
            if (num < maxRealsPerBlock ∧ rest2 ≠ 0) ∨ (num = maxRealsPerBlock ∧ rest2 < 0) then
              none
            else
              match r with
              | EclCell.tail dtail :: cs2 =>
                  if dtail = dhead then (bulkGo fuel cs2 rest2).map (fun ws => vs ++ ws)
                  else none
              | _ => none
      | _ => none

/-- Reading one whole binary PARAMS record of `nParams` elements
sequentially, as `ESmry::loadData()` does per time step. -/
def bulkReadParams (cells : List EclCell) (nParams : ℤ) : Option (List ℤ) :=
  bulkGo (cells.length + 1) cells nParams

/-! ### ESmry: the two `loadData` paths per key

A spec file contributes two per-column key lists: `kwListLoad` is the
`keywordListSpecFile` entry built in the constructor's first pass (the
bulk path's `makeKeywPosVector` reads it), while `kwListPos` holds the
keys synthesized in the constructor's `arrayPos` pass (the seek path reads
`arrayPos`).  The two passes call `makeKeyString` with the same KEYWORDS
and NUMS but the `arrayPos` pass takes WGNAMES from `smspecList.back()`
(`EGrid.cpp` lines 1089-1092), so in a restart chain the lists can differ;
for a single spec file they coincide. -/
structure SpecFileM where
  kwListLoad : List String
  kwListPos : List String
deriving DecidableEq

/-- One entry of `timeStepList`: the spec-file index it belongs to and the
PARAMS values stored on disk for that step (`params.length` plays the role
of `nParamsSpecFile[specInd]`). -/
structure SmryStep where
  specInd : ℕ
  params : List ℤ
deriving DecidableEq

/-- Membership of `k` in the unioned key set `keywList`/`keyword_index`
(which holds exactly the non-empty keys of all spec files of the chain). -/
def unionHasKey (specs : List SpecFileM) (k : String) : Bool :=
  !(k == "") && specs.any (fun sp => sp.kwListLoad.contains k)

/-- The `arrayPos` construction projected to one key `k`: scanning the
columns in order, every non-empty column key present in the union set
overwrites the map entry for that key, so the final entry for `k` is its
last matching column (`EGrid.cpp` lines 1119-1125). -/
def arrayPosColAux (isKey : String → Bool) (k : String) :
    List String → ℕ → Option ℕ → Option ℕ
  | [], _, acc => acc
  | s :: rest, i, acc =>
      arrayPosColAux isKey k rest (i + 1)
        (if s = k ∧ s ≠ "" ∧ isKey s then some i else acc)

/-- `arrayPos[specInd][keyIndex[k]]` as a column index, if assigned. -/
def arrayPosCol (isKey : String → Bool) (k : String) (kw : List String) : Option ℕ :=
  arrayPosColAux isKey k kw 0 none

/-- `ESmry::makeKeywPosVector` (`EGrid.cpp` lines 1470-1490): column `n`
is mapped to its key when that key is in `keyword_index` and not already
assigned to an earlier column (the `has_index` guard), so the first
occurrence of each key wins.  The key itself stands for its ordinal
(`keyword_index` is injective on the non-empty union keys). -/
def mkKeywposAux (isKey : String → Bool) : List String → List String → List (Option String)
  | [], _ => []
  | s :: rest, seen =>
    if isKey s && !(seen.contains s) then
      some s :: mkKeywposAux isKey rest (s :: seen)
    else
      none :: mkKeywposAux isKey rest seen

/-- The `keywpos` vector for a spec file. -/
def mkKeywpos (isKey : String → Bool) (kw : List String) : List (Option String) :=
  mkKeywposAux isKey kw []

/-- The values the bulk path pushes onto key `k`'s vector while reading one
PARAMS record: it parses the record block by block and pushes the `p`-th
element exactly when `keywpos[p]` is `k`'s ordinal.  `none` propagates a
parse failure (the code throws). -/
def bulkStepKeyValues (sp : SpecFileM) (isKey : String → Bool)
    (params : List ℤ) (k : String) : Option (List ℤ) :=
  (bulkReadParams (serializeParams params) (params.length : ℤ)).map
    (fun xs =>
      ((mkKeywpos isKey sp.kwListLoad).zip xs).filterMap
        (fun pr => if pr.1 = some k then some pr.2 else none))

/-- The seek path's contribution of one time step to key `k`'s vector:
look the key up in the step's spec file's `arrayPos` and either seek-read
that column of the PARAMS record, or push NaN (`none`). -/
def seekStepOf (specs : List SpecFileM) (k : String) (st : SmryStep) : Option ℤ :=
  (specs.get? st.specInd).bind (fun sp =>
    (arrayPosCol (unionHasKey specs) k sp.kwListPos).bind (fun p =>
      seekReadParam st.params p))

/-- The per-key vector produced by the seek path `ESmry::loadData(vectList)`
for key `k`: one entry per time step; `none` is the NaN appended when the
step's spec file has no `arrayPos` entry for `k`. -/
def seekLoadKey (specs : List SpecFileM) (steps : List SmryStep) (k : String) :
    List (Option ℤ) :=
  steps.map (seekStepOf specs k)

/-- The bulk path's contribution of one time step to key `k`'s vector. -/
def bulkStepOf (specs : List SpecFileM) (k : String) (st : SmryStep) : Option (List ℤ) :=
  (specs.get? st.specInd).bind (fun sp =>
    bulkStepKeyValues sp (unionHasKey specs) st.params k)

/-- The per-key vector produced by the bulk path `ESmry::loadData()` for
key `k`: concatenation over the time steps of whatever the distribution
loop pushes for `k` (nothing at all when `k` has no column in the step's
spec file). -/
def bulkLoadKey (specs : List SpecFileM) (steps : List SmryStep) (k : String) :
    Option (List (Option ℤ)) :=
  (steps.mapM (bulkStepOf specs k)).map
    (fun (ls : List (List ℤ)) => ls.flatten.map some)

/-! ## Helper lemmas -/

theorem actScan_fst_length (xs : List ℤ) : ∀ (i n : ℕ), (actScan xs i n).1.length = xs.length := by
  induction xs with
  | nil => intro i n; simp [actScan]
  | cons a rest ih =>
    intro i n
    by_cases h : 0 < a <;> simp [actScan, h, ih]

theorem actScan_nactive (xs : List ℤ) : ∀ (i n : ℕ),
    (actScan xs i n).2.2 = n + xs.countP (fun x => decide (0 < x)) := by
  induction xs with
  | nil => intro i n; simp [actScan]
  | cons a rest ih =>
    intro i n
    by_cases h : 0 < a <;> simp [actScan, h, ih, List.countP_cons] <;> omega

theorem actScan_glob_length (xs : List ℤ) : ∀ (i n : ℕ),
    (actScan xs i n).2.1.length = xs.countP (fun x => decide (0 < x)) := by
  induction xs with
  | nil => intro i n; simp [actScan]
  | cons a rest ih =>
    intro i n
    by_cases h : 0 < a <;> simp [actScan, h, ih, List.countP_cons]

theorem actScan_act_iff (xs : List ℤ) : ∀ (i n g : ℕ) (v : ℤ), xs.get? g = some v →
    ∃ w, (actScan xs i n).1.get? g = some w ∧ (0 ≤ w ↔ 0 < v) := by
  induction xs with
  | nil => intro i n g v hv; simp at hv
  | cons a rest ih =>
    intro i n g v hv
    match g with
    | 0 =>
      simp at hv
      subst hv
      by_cases h : 0 < a
      · exact ⟨(n : ℤ), by simp [actScan, h], by constructor <;> intro <;> [exact h; positivity]⟩
      · exact ⟨-1, by simp [actScan, h], by constructor <;> intro hh <;> [norm_num at hh; exact absurd hh h]⟩
    | g' + 1 =>
      simp only [List.get?] at hv
      obtain ⟨w, hw, hiff⟩ := ih (i + 1) (if 0 < a then n + 1 else n) g' v hv
      by_cases h : 0 < a
      · refine ⟨w, ?_, hiff⟩
        simp only [h, if_true] at hw
        simpa [actScan, h] using hw
      · refine ⟨w, ?_, hiff⟩
        simp only [h, if_false] at hw
        simpa [actScan, h] using hw

theorem actScan_glob_inverse (xs : List ℤ) : ∀ (i n t : ℕ),
    t < (actScan xs i n).2.1.length →
    ∃ gi, (actScan xs i n).2.1.get? t = some gi ∧ i ≤ gi ∧
      (actScan xs i n).1.get? (gi - i) = some ((n + t : ℕ) : ℤ) := by
  induction xs with
  | nil => intro i n t ht; simp [actScan] at ht
  | cons a rest ih =>
    intro i n t ht
    by_cases h : 0 < a
    · match t with
      | 0 => exact ⟨i, by simp [actScan, h], le_refl i, by simp [actScan, h]⟩
      | s + 1 =>
        simp [actScan, h] at ht
        obtain ⟨gi, hgi, hle, hact⟩ := ih (i + 1) (n + 1) s ht
        refine ⟨gi, by simpa [actScan, h] using hgi, by omega, ?_⟩
        have hsub : gi - i = (gi - (i + 1)) + 1 := by omega
        rw [hsub]
        have : ((n + 1 + s : ℕ) : ℤ) = ((n + (s + 1) : ℕ) : ℤ) := by push_cast; ring
        simpa [actScan, h, this] using hact
    · simp [actScan, h] at ht
      obtain ⟨gi, hgi, hle, hact⟩ := ih (i + 1) n t ht
      refine ⟨gi, by simpa [actScan, h] using hgi, by omega, ?_⟩
      have hsub : gi - i = (gi - (i + 1)) + 1 := by omega
      rw [hsub]
      simpa [actScan, h] using hact

theorem lastDotPosAux_append (l1 l2 : List Char) : ∀ (i : ℕ) (acc : Option ℕ),
    lastDotPosAux (l1 ++ l2) i acc = lastDotPosAux l2 (i + l1.length) (lastDotPosAux l1 i acc) := by
  induction l1 with
  | nil => intro i acc; simp [lastDotPosAux]
  | cons c cs ih =>
    intro i acc
    simp only [List.cons_append, lastDotPosAux, List.length_cons, List.append_eq]
    rw [ih]
    have harith : i + 1 + cs.length = i + (cs.length + 1) := by omega
    rw [harith]

theorem lastDotPosAux_smspec (i : ℕ) (acc : Option ℕ) :
    lastDotPosAux ".SMSPEC".data i acc = some i := by
  have h : ".SMSPEC".data = ['.', 'S', 'M', 'S', 'P', 'E', 'C'] := rfl
  rw [h]
  simp [lastDotPosAux]

theorem extensionOf_append_smspec (name : String) (h : name ≠ "") :
    extensionOf (name ++ ".SMSPEC") = ".SMSPEC" := by
  have hne : name.data ≠ [] := by
    intro hd
    exact h (String.ext (by simp [hd]))
  have hlen : 0 < name.data.length := List.length_pos.mpr hne
  have hdata : (name ++ ".SMSPEC").data = name.data ++ ".SMSPEC".data :=
    String.data_append name ".SMSPEC"
  have hsmlen : ".SMSPEC".data.length = 7 := rfl
  have hdot : lastDotPos (name ++ ".SMSPEC").data = some name.data.length := by
    rw [lastDotPos, hdata, lastDotPosAux_append, lastDotPosAux_smspec]
    simp
  have h1 : (name ++ ".SMSPEC") ≠ "." := by
    intro hh
    have := String.data_eq_of_eq hh
    rw [hdata] at this
    have hl := congrArg List.length this
    have hll : (String.data ".").length = 1 := rfl
    rw [List.length_append, hsmlen, hll] at hl
    omega
  have h2 : (name ++ ".SMSPEC") ≠ ".." := by
    intro hh
    have := String.data_eq_of_eq hh
    rw [hdata] at this
    have hl := congrArg List.length this
    have hll : (String.data "..").length = 2 := rfl
    rw [List.length_append, hsmlen, hll] at hl
    omega
  rw [extensionOf, if_neg (by push_neg; exact ⟨h1, h2⟩), hdot]
  show (if 0 < name.data.length then
          String.mk ((name ++ ".SMSPEC").data.drop name.data.length) else "") = ".SMSPEC"
  rw [if_pos hlen, hdata, List.drop_left]

theorem serGo_congr : ∀ (f1 : ℕ) (xs : List ℤ) (f2 : ℕ),
    xs.length ≤ f1 → xs.length ≤ f2 → serGo f1 xs = serGo f2 xs := by
  intro f1
  induction f1 with
  | zero =>
    intro xs f2 h1 h2
    have hx : xs = [] := List.length_eq_zero.mp (Nat.le_zero.mp h1)
    subst hx
    cases f2 <;> simp [serGo]
  | succ f ih =>
    intro xs f2 h1 h2
    cases xs with
    | nil => cases f2 <;> simp [serGo]
    | cons x xs' =>
      cases f2 with
      | zero => simp at h2
      | succ f2' =>
        simp only [serGo]
        have hmax : maxRealsPerBlock = 1000 := rfl
        have hdlen : ((x :: xs').drop maxRealsPerBlock).length = xs'.length + 1 - 1000 := by
          rw [List.length_drop, hmax, List.length_cons]
        rw [ih ((x :: xs').drop maxRealsPerBlock) f2'
            (by rw [hdlen]; simp at h1; omega) (by rw [hdlen]; simp at h2; omega)]

theorem serializeParams_cons (x : ℤ) (xs : List ℤ) :
    serializeParams (x :: xs) =
      EclCell.head (sizeOfReal * ((x :: xs).take maxRealsPerBlock).length)
        :: (((x :: xs).take maxRealsPerBlock).map EclCell.data
            ++ EclCell.tail (sizeOfReal * ((x :: xs).take maxRealsPerBlock).length)
               :: serializeParams ((x :: xs).drop maxRealsPerBlock)) := by
  show serGo (xs.length + 1) (x :: xs) = _
  simp only [serGo]
  rw [serGo_congr xs.length ((x :: xs).drop maxRealsPerBlock)
      ((x :: xs).drop maxRealsPerBlock).length
      (by
        have hmax : maxRealsPerBlock = 1000 := rfl
        rw [List.length_drop, hmax, List.length_cons]
        omega)
      (le_refl _)]
  rfl

theorem serialize_get?_data : ∀ (n : ℕ) (xs : List ℤ) (p : ℕ) (v : ℤ),
    xs.length ≤ n → xs.get? p = some v →
    (serializeParams xs).get? (2 * (p / maxRealsPerBlock) + 1 + p) =
      some (EclCell.data v) := by
  intro n
  induction n with
  | zero =>
    intro xs p v hn hv
    have hx : xs = [] := List.length_eq_zero.mp (Nat.le_zero.mp hn)
    subst hx
    simp at hv
  | succ n ih =>
    intro xs p v hn hv
    have hplen : p < xs.length := by
      by_contra hc
      rw [List.get?_eq_none.mpr (by omega)] at hv
      exact Option.noConfusion hv
    cases xs with
    | nil => simp at hv
    | cons x xs' =>
      have hmax : maxRealsPerBlock = 1000 := rfl
      rw [serializeParams_cons]
      have hblklen : ((x :: xs').take maxRealsPerBlock).length
          = min 1000 (xs'.length + 1) := by
        rw [List.length_take, hmax, List.length_cons]
      by_cases hp : p < 1000
      · have hdiv : p / maxRealsPerBlock = 0 := by
          rw [hmax]; exact Nat.div_eq_of_lt hp
        have hidx : 2 * (p / maxRealsPerBlock) + 1 + p = p + 1 := by rw [hdiv]; ring
        rw [hidx, List.get?_cons_succ]
        have hpblk : p < (((x :: xs').take maxRealsPerBlock).map EclCell.data).length := by
          rw [List.length_map, hblklen]
          simp only [List.length_cons] at hplen
          omega
        rw [List.get?_append hpblk, List.get?_map]
        rw [List.get?_take (by rw [hmax]; exact hp), hv]
        rfl
      · push_neg at hp
        have hlen1000 : 1000 < (x :: xs').length := by
          rw [List.length_cons]
          rw [List.length_cons] at hplen
          omega
        have hdivge : 1 ≤ p / 1000 := (Nat.one_le_div_iff (by norm_num)).mpr hp
        have hqdiv : (p - 1000) / 1000 = p / 1000 - 1 := by
          have hq : p - 1000 + 1000 = p := by omega
          have := Nat.add_div_right (p - 1000) (by norm_num : 0 < 1000)
          rw [hq] at this
          omega
        have hidx : 2 * (p / maxRealsPerBlock) + 1 + p
            = (2 * (p / 1000) + p) + 1 := by rw [hmax]; omega
        rw [hidx, List.get?_cons_succ]
        have hmaplen : (((x :: xs').take maxRealsPerBlock).map EclCell.data).length = 1000 := by
          rw [List.length_map, hblklen]
          simp only [List.length_cons] at hlen1000
          omega
        have hge : (((x :: xs').take maxRealsPerBlock).map EclCell.data).length
            ≤ 2 * (p / 1000) + p := by
          rw [hmaplen]; omega
        rw [List.get?_append_right hge, hmaplen]
        have hidx2 : 2 * (p / 1000) + p - 1000 = (2 * (p / 1000) + p - 1001) + 1 := by
          omega
        rw [hidx2, List.get?_cons_succ]
        have hidx3 : 2 * (p / 1000) + p - 1001
            = 2 * ((p - 1000) / maxRealsPerBlock) + 1 + (p - 1000) := by
          rw [hmax, hqdiv]; omega
        rw [hidx3]
        apply ih
        · rw [List.length_drop, hmax, List.length_cons]
          rw [List.length_cons] at hn
          omega
        · rw [List.get?_drop]
          rw [show maxRealsPerBlock + (p - 1000) = p by rw [hmax]; omega]
          exact hv

theorem serializeParams_length_ge : ∀ (n : ℕ) (xs : List ℤ),
    xs.length ≤ n → xs.length ≤ (serializeParams xs).length := by
  intro n
  induction n with
  | zero =>
    intro xs hn
    have hx : xs = [] := List.length_eq_zero.mp (Nat.le_zero.mp hn)
    subst hx
    simp
  | succ n ih =>
    intro xs hn
    cases xs with
    | nil => simp
    | cons x xs' =>
      have hmax : maxRealsPerBlock = 1000 := rfl
      rw [serializeParams_cons]
      have hdrop := ih ((x :: xs').drop maxRealsPerBlock)
        (by
          rw [List.length_drop, hmax, List.length_cons]
          simp only [List.length_cons] at hn
          omega)
      simp only [List.length_cons, List.length_append, List.length_map,
        List.length_take, List.length_drop, hmax] at hdrop ⊢
      omega

theorem takeDataCells_exact : ∀ (l : List ℤ) (r : List EclCell),
    takeDataCells l.length (l.map EclCell.data ++ r) = some (l, r) := by
  intro l
  induction l with
  | nil => intro r; simp [takeDataCells]
  | cons v l' ih => intro r; simp [takeDataCells, ih]

theorem bulkGo_block (f : ℕ) (blk : List ℤ) (restCells : List EclCell) (rest : ℤ)
    (hne : ¬ rest ≤ 0)
    (hn : ¬ maxRealsPerBlock < blk.length)
    (hguard : ¬ ((blk.length < maxRealsPerBlock ∧ rest - (blk.length : ℤ) ≠ 0) ∨
                 (blk.length = maxRealsPerBlock ∧ rest - (blk.length : ℤ) < 0))) :
    bulkGo (f + 1)
      (EclCell.head (sizeOfReal * blk.length)
        :: (blk.map EclCell.data ++ EclCell.tail (sizeOfReal * blk.length) :: restCells))
      rest
    = (bulkGo f restCells (rest - (blk.length : ℤ))).map (fun ws => blk ++ ws) := by
  have hnum : sizeOfReal * blk.length / sizeOfInte = blk.length := by
    show 4 * blk.length / 4 = blk.length
    omega
  simp only [bulkGo, hnum, takeDataCells_exact, if_neg hne, if_neg hn, if_neg hguard]
  simp

theorem bulkGo_serialize : ∀ (fuel : ℕ) (xs : List ℤ), xs.length < fuel →
    bulkGo fuel (serializeParams xs) ((xs.length : ℕ) : ℤ) = some xs := by
  intro fuel
  induction fuel with
  | zero => intro xs h; omega
  | succ f ih =>
    intro xs h
    cases xs with
    | nil => simp [serializeParams, serGo, bulkGo]
    | cons x xs' =>
      have hmax : maxRealsPerBlock = 1000 := rfl
      have hlen : (x :: xs').length = xs'.length + 1 := List.length_cons x xs'
      have hblklen : ((x :: xs').take maxRealsPerBlock).length
          = min 1000 (xs'.length + 1) := by
        rw [List.length_take, hmax, List.length_cons]
      have hdroplen : ((x :: xs').drop maxRealsPerBlock).length
          = xs'.length + 1 - 1000 := by
        rw [List.length_drop, hmax, List.length_cons]
      rw [serializeParams_cons]
      rw [bulkGo_block f ((x :: xs').take maxRealsPerBlock)
           (serializeParams ((x :: xs').drop maxRealsPerBlock)) _
           (by rw [hlen]; push_cast; omega)
           (by rw [hblklen, hmax]; omega)
           (by rw [hblklen, hmax, hlen]; push_cast; omega)]
      have hr2 : ((x :: xs').length : ℤ) - (((x :: xs').take maxRealsPerBlock).length : ℤ)
          = ((((x :: xs').drop maxRealsPerBlock).length : ℕ) : ℤ) := by
        rw [hblklen, hdroplen, hlen]
        push_cast
        omega
      rw [hr2]
      rw [ih ((x :: xs').drop maxRealsPerBlock)
           (by rw [hdroplen]; rw [hlen] at h; omega)]
      simp [List.take_append_drop]

theorem bulkReadParams_serialize (xs : List ℤ) :
    bulkReadParams (serializeParams xs) ((xs.length : ℕ) : ℤ) = some xs := by
  rw [bulkReadParams]
  exact bulkGo_serialize ((serializeParams xs).length + 1) xs
    (Nat.lt_succ_of_le (serializeParams_length_ge xs.length xs (le_refl _)))

theorem arrayPosColAux_no_occ (isKey : String → Bool) (k : String) :
    ∀ (kw : List String) (i : ℕ) (acc : Option ℕ),
    (∀ q, kw.get? q ≠ some k) → arrayPosColAux isKey k kw i acc = acc := by
  intro kw
  induction kw with
  | nil => intro i acc hno; rfl
  | cons s rest ih =>
    intro i acc hno
    have hs : s ≠ k := by
      intro he
      exact hno 0 (by simp [he])
    simp only [arrayPosColAux]
    rw [if_neg (fun hc => hs hc.1)]
    exact ih (i + 1) acc (fun q hq => hno (q + 1) (by simpa using hq))

theorem arrayPosColAux_unique (isKey : String → Bool) (k : String)
    (hkey : isKey k = true) (hk : k ≠ "") :
    ∀ (kw : List String) (p i : ℕ) (acc : Option ℕ),
    kw.get? p = some k → (∀ q, kw.get? q = some k → q = p) →
    arrayPosColAux isKey k kw i acc = some (i + p) := by
  intro kw
  induction kw with
  | nil => intro p i acc hp _; simp at hp
  | cons s rest ih =>
    intro p i acc hp huniq
    by_cases hs : s = k
    · have hp0' : 0 = p := huniq 0 (by simp [hs])
      have hno : ∀ q, rest.get? q ≠ some k := by
        intro q hq
        have := huniq (q + 1) (by simpa using hq)
        omega
      simp only [arrayPosColAux]
      rw [if_pos ⟨hs, hs ▸ hk, hs ▸ hkey⟩]
      rw [arrayPosColAux_no_occ isKey k rest (i + 1) (some i) hno]
      rw [← hp0']
      simp
    · cases p with
      | zero =>
        simp at hp
        exact absurd hp hs
      | succ p' =>
        have hp' : rest.get? p' = some k := by simpa using hp
        have huniq2 : ∀ q, rest.get? q = some k → q = p' := by
          intro q hq
          have := huniq (q + 1) (by simpa using hq)
          omega
        simp only [arrayPosColAux]
        rw [if_neg (fun hc => hs hc.1)]
        rw [ih p' (i + 1) _ hp' huniq2]
        congr 1
        omega

theorem arrayPosCol_unique (isKey : String → Bool) (k : String) (kw : List String) (p : ℕ)
    (hkey : isKey k = true) (hk : k ≠ "")
    (hp : kw.get? p = some k) (huniq : ∀ q, kw.get? q = some k → q = p) :
    arrayPosCol isKey k kw = some p := by
  rw [arrayPosCol, arrayPosColAux_unique isKey k hkey hk kw p 0 none hp huniq]
  simp

theorem mkKeywposAux_filter_no_occ (isKey : String → Bool) (k : String) :
    ∀ (kw : List String) (seen : List String) (ws : List ℤ),
    (∀ q, kw.get? q ≠ some k) →
    ((mkKeywposAux isKey kw seen).zip ws).filterMap
      (fun pr => if pr.1 = some k then some pr.2 else none) = [] := by
  intro kw
  induction kw with
  | nil => intro seen ws _; simp [mkKeywposAux]
  | cons s rest ih =>
    intro seen ws hno
    have hs : s ≠ k := by
      intro he
      exact hno 0 (by simp [he])
    have hno' : ∀ q, rest.get? q ≠ some k := fun q hq => hno (q + 1) (by simpa using hq)
    cases ws with
    | nil => simp
    | cons w ws' =>
      simp only [mkKeywposAux]
      by_cases hcond : (isKey s && !(seen.contains s)) = true
      · rw [if_pos hcond]
        simp only [List.zip_cons_cons, List.filterMap_cons]
        rw [if_neg (by simp [hs])]
        exact ih (s :: seen) ws' hno'
      · rw [if_neg hcond]
        simp only [List.zip_cons_cons, List.filterMap_cons]
        rw [if_neg (by simp)]
        exact ih seen ws' hno'

theorem mkKeywposAux_filter_unique (isKey : String → Bool) (k : String)
    (hkey : isKey k = true) :
    ∀ (kw : List String) (p : ℕ) (seen : List String) (ws : List ℤ) (v : ℤ),
    kw.get? p = some k → (∀ q, kw.get? q = some k → q = p) →
    seen.contains k = false → ws.length = kw.length → ws.get? p = some v →
    ((mkKeywposAux isKey kw seen).zip ws).filterMap
      (fun pr => if pr.1 = some k then some pr.2 else none) = [v] := by
  intro kw
  induction kw with
  | nil => intro p seen ws v hp _ _ _ _; simp at hp
  | cons s rest ih =>
    intro p seen ws v hp huniq hseen hlen hv
    cases ws with
    | nil => simp at hlen
    | cons w ws' =>
      by_cases hs : s = k
      · have hp0 : 0 = p := huniq 0 (by simp [hs])
        have hw : w = v := by
          rw [← hp0] at hv
          simpa using hv
        have hno : ∀ q, rest.get? q ≠ some k := by
          intro q hq
          have := huniq (q + 1) (by simpa using hq)
          omega
        simp only [mkKeywposAux]
        rw [if_pos (by
          subst hs
          simp only [hkey, Bool.true_and, Bool.not_eq_true']
          exact hseen)]
        simp only [List.zip_cons_cons, List.filterMap_cons]
        rw [if_pos (by rw [hs])]
        rw [mkKeywposAux_filter_no_occ isKey k rest (s :: seen) ws' hno, hw]
      · cases p with
        | zero =>
          simp at hp
          exact absurd hp hs
        | succ p' =>
          have hp' : rest.get? p' = some k := by simpa using hp
          have huniq' : ∀ q, rest.get? q = some k → q = p' := by
            intro q hq
            have := huniq (q + 1) (by simpa using hq)
            omega
          have hlen' : ws'.length = rest.length := by simpa using hlen
          have hv' : ws'.get? p' = some v := by simpa using hv
          simp only [mkKeywposAux]
          by_cases hcond : (isKey s && !(seen.contains s)) = true
          · rw [if_pos hcond]
            simp only [List.zip_cons_cons, List.filterMap_cons]
            rw [if_neg (by simp [hs])]
            refine ih p' (s :: seen) ws' v hp' huniq' ?_ hlen' hv'
            have hnotmem : ¬ k ∈ seen := by simpa using hseen
            simp only [List.contains_cons]
            simp only [Bool.or_eq_false_iff]
            constructor
            · simpa using fun he => hs he.symm
            · simpa using hnotmem
          · rw [if_neg hcond]
            simp only [List.zip_cons_cons, List.filterMap_cons]
            rw [if_neg (by simp)]
            exact ih p' seen ws' v hp' huniq' hseen hlen' hv'

theorem cellAtByte_seek_data (xs : List ℤ) (p : ℕ) (v : ℤ) (hv : xs.get? p = some v) :
    cellAtByte (serializeParams xs) (paramSeekOffset p) = some (EclCell.data v) := by
  have hoff : paramSeekOffset p / 4 = 2 * (p / maxRealsPerBlock) + 1 + p := by
    show ((2 * (p / maxRealsPerBlock) + 1) * 4 + p * 4) / 4 = _
    omega
  rw [cellAtByte, hoff]
  exact serialize_get?_data xs.length xs p v (le_refl _) hv

theorem seekReadParam_some (params : List ℤ) (p : ℕ) (v : ℤ)
    (hv : params.get? p = some v) : seekReadParam params p = some v := by
  rw [seekReadParam, cellAtByte_seek_data params p v hv]

theorem bulk_step_single (sp : SpecFileM) (isKey : String → Bool) (params : List ℤ)
    (k : String) (p : ℕ) (v : ℤ) (hkey : isKey k = true)
    (hlen : sp.kwListLoad.length = params.length)
    (hp : sp.kwListLoad.get? p = some k)
    (huniq : ∀ q, sp.kwListLoad.get? q = some k → q = p)
    (hv : params.get? p = some v) :
    bulkStepKeyValues sp isKey params k = some [v] := by
  rw [bulkStepKeyValues, bulkReadParams_serialize]
  rw [Option.map_some']
  rw [mkKeywpos, mkKeywposAux_filter_unique isKey k hkey sp.kwListLoad p [] params v
      hp huniq rfl hlen.symm hv]

/-! ## Claim theorems -/

/-- C2: for every grid `nx × ny × nz` and global index `g ∈ [0, nx*ny*nz)`,
`EGrid::ijk_from_global_index(g)` returns
`(i, j, k) = (g%(nx*ny)%nx, g%(nx*ny)/nx, g/(nx*ny))`, feeding that triple
back into `EGrid::global_index` returns `g`, and both functions throw
exactly when their input is out of range. -/
theorem C2_index_round_trip (nx ny nz : ℕ) (g : ℤ)
    (h0 : 0 ≤ g) (h1 : g < ((nx * ny * nz : ℕ) : ℤ)) :
    ijk_from_global_index nx ny nz g =
      some ((g % ((nx : ℤ) * (ny : ℤ))) % (nx : ℤ),
            (g % ((nx : ℤ) * (ny : ℤ))) / (nx : ℤ),
            g / ((nx : ℤ) * (ny : ℤ))) ∧
    global_index nx ny nz ((g % ((nx : ℤ) * (ny : ℤ))) % (nx : ℤ))
      ((g % ((nx : ℤ) * (ny : ℤ))) / (nx : ℤ)) (g / ((nx : ℤ) * (ny : ℤ))) = some g ∧
    (∀ g' : ℤ, ijk_from_global_index nx ny nz g' = none ↔
        (g' < 0 ∨ ((nx * ny * nz : ℕ) : ℤ) ≤ g')) ∧
    (∀ i j k : ℤ, global_index nx ny nz i j k = none ↔
        (i < 0 ∨ (nx : ℤ) ≤ i ∨ j < 0 ∨ (ny : ℤ) ≤ j ∨ k < 0 ∨ (nz : ℤ) ≤ k)) := by
  have hprod : (0 : ℤ) < ((nx * ny * nz : ℕ) : ℤ) := lt_of_le_of_lt h0 h1
  have hprodn : 0 < nx * ny * nz := by exact_mod_cast hprod
  have hnx : (0 : ℤ) < (nx : ℤ) := by
    have : 0 < nx := by
      rcases Nat.eq_zero_or_pos nx with hz | hp
      · rw [hz] at hprodn; simp at hprodn
      · exact hp
    exact_mod_cast this
  have hny : (0 : ℤ) < (ny : ℤ) := by
    have : 0 < ny := by
      rcases Nat.eq_zero_or_pos ny with hz | hp
      · rw [hz] at hprodn; simp at hprodn
      · exact hp
    exact_mod_cast this
  have hnz : (0 : ℤ) < (nz : ℤ) := by
    have : 0 < nz := by
      rcases Nat.eq_zero_or_pos nz with hz | hp
      · rw [hz] at hprodn; simp at hprodn
      · exact hp
    exact_mod_cast this
  have hM : (0 : ℤ) < (nx : ℤ) * (ny : ℤ) := mul_pos hnx hny
  have hi0 : 0 ≤ (g % ((nx : ℤ) * (ny : ℤ))) % (nx : ℤ) :=
    Int.emod_nonneg _ (ne_of_gt hnx)
  have hi1 : (g % ((nx : ℤ) * (ny : ℤ))) % (nx : ℤ) < (nx : ℤ) :=
    Int.emod_lt_of_pos _ hnx
  have hm0 : 0 ≤ g % ((nx : ℤ) * (ny : ℤ)) := Int.emod_nonneg _ (ne_of_gt hM)
  have hm1 : g % ((nx : ℤ) * (ny : ℤ)) < (nx : ℤ) * (ny : ℤ) := Int.emod_lt_of_pos _ hM
  have hj0 : 0 ≤ (g % ((nx : ℤ) * (ny : ℤ))) / (nx : ℤ) := Int.ediv_nonneg hm0 (le_of_lt hnx)
  have hj1 : (g % ((nx : ℤ) * (ny : ℤ))) / (nx : ℤ) < (ny : ℤ) := by
    rw [Int.ediv_lt_iff_lt_mul hnx]
    calc g % ((nx : ℤ) * (ny : ℤ)) < (nx : ℤ) * (ny : ℤ) := hm1
      _ = (ny : ℤ) * (nx : ℤ) := by ring
  have hk0 : 0 ≤ g / ((nx : ℤ) * (ny : ℤ)) := Int.ediv_nonneg h0 (le_of_lt hM)
  have hk1 : g / ((nx : ℤ) * (ny : ℤ)) < (nz : ℤ) := by
    rw [Int.ediv_lt_iff_lt_mul hM]
    calc g < ((nx * ny * nz : ℕ) : ℤ) := h1
      _ = (nz : ℤ) * ((nx : ℤ) * (ny : ℤ)) := by push_cast; ring
  have e1 : (nx : ℤ) * ((g % ((nx : ℤ) * (ny : ℤ))) / (nx : ℤ))
      + (g % ((nx : ℤ) * (ny : ℤ))) % (nx : ℤ) = g % ((nx : ℤ) * (ny : ℤ)) :=
    Int.ediv_add_emod _ _
  have e2 : ((nx : ℤ) * (ny : ℤ)) * (g / ((nx : ℤ) * (ny : ℤ)))
      + g % ((nx : ℤ) * (ny : ℤ)) = g := Int.ediv_add_emod _ _
  refine ⟨?_, ?_, ?_, ?_⟩
  · rw [ijk_from_global_index, if_neg]
    push_neg
    exact ⟨h0, h1⟩
  · rw [global_index, if_neg]
    · congr 1
      linear_combination e1 + e2
    · push_neg
      exact ⟨hi0, hi1, hj0, hj1, hk0, hk1⟩
  · intro g'
    by_cases hc : (g' < 0 ∨ ((nx * ny * nz : ℕ) : ℤ) ≤ g')
    · rw [ijk_from_global_index, if_pos hc]
      exact iff_of_true rfl hc
    · rw [ijk_from_global_index, if_neg hc]
      exact iff_of_false (by simp) hc
  · intro i j k
    by_cases hc : (i < 0 ∨ (nx : ℤ) ≤ i ∨ j < 0 ∨ (ny : ℤ) ≤ j ∨ k < 0 ∨ (nz : ℤ) ≤ k)
    · rw [global_index, if_pos hc]
      exact iff_of_true rfl hc
    · rw [global_index, if_neg hc]
      exact iff_of_false (by simp) hc

/-- Witness for C2 at `nx=2, ny=3, nz=4, g=17` (giving `(i,j,k) = (1,2,2)`). -/
theorem C2_index_round_trip_witness :
    ijk_from_global_index 2 3 4 17 =
      some ((17 % (((2 : ℕ) : ℤ) * ((3 : ℕ) : ℤ))) % ((2 : ℕ) : ℤ),
            (17 % (((2 : ℕ) : ℤ) * ((3 : ℕ) : ℤ))) / ((2 : ℕ) : ℤ),
            17 / (((2 : ℕ) : ℤ) * ((3 : ℕ) : ℤ))) :=
  (C2_index_round_trip 2 3 4 17 (by norm_num) (by norm_num)).1

/-- C3: with an ACTNUM record, `actnum[g] > 0` iff `act_index[g] ≥ 0`,
`act_index[glob_index[a]] = a` for every active `a`, and `nactive` counts
the positive ACTNUM entries; on `[1,0,1,1,0,1]` the maps are
`act_index = [0,-1,1,2,-1,3]`, `glob_index = [0,2,3,5]`, `nactive = 4`;
without ACTNUM both maps are the identity on `[0, nCells)`. -/
theorem C3_active_maps (actnum : List ℤ) (g : ℕ) (v : ℤ) (a : ℕ) (nCells gid : ℕ) :
    (actnum.get? g = some v →
       ∃ w, (buildActiveMaps actnum).1.get? g = some w ∧ (0 ≤ w ↔ 0 < v)) ∧
    (a < (buildActiveMaps actnum).2.2 →
       ∃ gi, (buildActiveMaps actnum).2.1.get? a = some gi ∧
         (buildActiveMaps actnum).1.get? gi = some (a : ℤ)) ∧
    ((buildActiveMaps actnum).2.2 = actnum.countP (fun x => decide (0 < x))) ∧
    (buildActiveMaps [1, 0, 1, 1, 0, 1] = ([0, -1, 1, 2, -1, 3], [0, 2, 3, 5], 4)) ∧
    (gid < nCells →
       (identityActiveMaps nCells).1.get? gid = some (gid : ℤ) ∧
       (identityActiveMaps nCells).2.get? gid = some gid) := by
  refine ⟨?_, ?_, ?_, by decide, ?_⟩
  · intro hv
    exact actScan_act_iff actnum 0 0 g v hv
  · intro ha
    have hlen : a < (actScan actnum 0 0).2.1.length := by
      rw [actScan_glob_length]
      have := actScan_nactive actnum 0 0
      simp only [buildActiveMaps] at ha
      omega
    obtain ⟨gi, hgi, _, hact⟩ := actScan_glob_inverse actnum 0 0 a hlen
    refine ⟨gi, hgi, ?_⟩
    simpa using hact
  · have := actScan_nactive actnum 0 0
    simpa [buildActiveMaps] using this
  · intro hg
    constructor
    · rw [identityActiveMaps, List.get?_eq_getElem?, List.getElem?_map,
          List.getElem?_range hg]
      rfl
    · rw [identityActiveMaps, List.get?_eq_getElem?, List.getElem?_range hg]

/-- Witness for C3 at `actnum = [1,0,1]`, `g = 2`, `v = 1`. -/
theorem C3_active_maps_witness :
    (([1, 0, 1] : List ℤ).get? 2 = some 1) ∧
    ∃ w, (buildActiveMaps [1, 0, 1]).1.get? 2 = some w ∧ (0 ≤ w ↔ (0 : ℤ) < 1) :=
  ⟨by decide, (C3_active_maps [1, 0, 1] 2 1 0 0 0).1 (by decide)⟩

/-- C4: pillar interpolation of `EGrid::getCellCorners` in exact
arithmetic: a degenerate pillar (`z_top = z_bot`) yields `(x_top, y_top)`,
otherwise `x = x_top + (x_bot-x_top)·(z_top-z)/(z_top-z_bot)` (same for
`y`); the pillar `(0,0,0)-(10,0,100)` at depth 50 gives `x = 5, y = 0`, and
the degenerate pillar with `z_t = z_b = 0` gives `x = 0`. -/
theorem C4_pillar_interpolation (xt yt zt xb yb zb z : ℚ) :
    (zt = zb → pillarInterpXY xt yt zt xb yb zb z = (xt, yt)) ∧
    (zt ≠ zb → pillarInterpXY xt yt zt xb yb zb z =
       (xt + (xb - xt) * (zt - z) / (zt - zb),
        yt + (yb - yt) * (zt - z) / (zt - zb))) ∧
    pillarInterpXY 0 0 0 10 0 100 50 = (5, 0) ∧
    pillarInterpXY 0 0 0 10 0 0 50 = (0, 0) := by
  refine ⟨?_, ?_, ?_, ?_⟩
  · intro h; simp [pillarInterpXY, h]
  · intro h
    simp only [pillarInterpXY, if_neg h]
    rw [div_mul_eq_mul_div, div_mul_eq_mul_div]
  · norm_num [pillarInterpXY]
  · norm_num [pillarInterpXY]

/-- Witness for C4: the non-degenerate branch at `(1,2,3)-(4,5,6)`, depth 7. -/
theorem C4_pillar_interpolation_witness :
    (3 : ℚ) ≠ 6 ∧
    pillarInterpXY 1 2 3 4 5 6 7 =
      (1 + (4 - 1) * (3 - 7) / (3 - 6), 2 + (5 - 2) * (3 - 7) / (3 - 6)) :=
  ⟨by norm_num, (C4_pillar_interpolation 1 2 3 4 5 6 7).2.1 (by norm_num)⟩

/-- C10: `ESmry::all_steps_available` (on the loaded `mini_steps` values)
returns `true` iff every pair of consecutive ministeps differs by at most
1; in particular it returns `true` for fewer than two ministeps. -/
theorem C10_all_steps_available (ms : List ℤ) :
    (all_steps_available ms = true ↔
       ∀ (n : ℕ) (a b : ℤ), ms.get? n = some a → ms.get? (n + 1) = some b → b - a ≤ 1) ∧
    (ms.length < 2 → all_steps_available ms = true) := by
  induction ms with
  | nil => exact ⟨by simp [all_steps_available], fun _ => by simp [all_steps_available]⟩
  | cons a tail ih =>
    cases tail with
    | nil =>
      refine ⟨?_, fun _ => by simp [all_steps_available]⟩
      simp only [all_steps_available, true_iff]
      intro n x y hx hy
      cases n <;> simp at hy
    | cons b t =>
      refine ⟨?_, ?_⟩
      · by_cases h : 1 < b - a
        · simp only [all_steps_available, if_pos h]
          constructor
          · intro hfalse; exact absurd hfalse (by simp)
          · intro hall
            have := hall 0 a b (by simp) (by simp)
            omega
        · simp only [all_steps_available, if_neg h]
          rw [(ih).1]
          constructor
          · intro htail n x y hx hy
            match n with
            | 0 =>
              simp at hx hy
              omega
            | n' + 1 =>
              exact htail n' x y (by simpa using hx) (by simpa using hy)
          · intro hall n x y hx hy
            exact hall (n + 1) x y (by simpa using hx) (by simpa using hy)
      · intro hlen
        exact absurd hlen (by simp only [List.length_cons]; omega)

/-- Witness for C10: a one-element ministep list. -/
theorem C10_all_steps_available_witness :
    (([42] : List ℤ).length < 2) ∧ all_steps_available [42] = true :=
  ⟨by decide, (C10_all_steps_available [42]).2 (by decide)⟩

/-- C9 (amended): the extension dispatch of the `ESmry` constructor:
`.SMSPEC` selects unformatted, `.FSMSPEC` formatted, a nonempty name
without extension gets `.SMSPEC` appended and is unformatted, and any
other extension throws `std::invalid_argument` before any file is
opened. -/
theorem C9_extension_dispatch (name : String) :
    (extensionOf name = ".SMSPEC" → esmrySetup name = Except.ok (name, false)) ∧
    (extensionOf name = ".FSMSPEC" → esmrySetup name = Except.ok (name, true)) ∧
    (extensionOf name = "" → name ≠ "" →
       esmrySetup name = Except.ok (name ++ ".SMSPEC", false)) ∧
    (extensionOf name ≠ "" → extensionOf name ≠ ".SMSPEC" → extensionOf name ≠ ".FSMSPEC" →
       esmrySetup name =
         Except.error "Input file should have extension .SMSPEC or .FSMSPEC") := by
  refine ⟨?_, ?_, ?_, ?_⟩
  · intro h
    simp [esmrySetup, h]
  · intro h
    simp [esmrySetup, h]
  · intro h hne
    simp [esmrySetup, h, extensionOf_append_smspec name hne]
  · intro h1 h2 h3
    simp [esmrySetup, h1, h2, h3]

/-- Counterexample for C9 as claimed: the empty input path has no
extension, so the claim predicts `.SMSPEC` is appended and the file is
read unformatted; but `".SMSPEC"` itself has an empty
`std::filesystem::path::extension()` (a leading dot marks a hidden file),
so the constructor throws instead. -/
theorem C9_counterexample :
    extensionOf "" = "" ∧
    esmrySetup "" = Except.error "Input file should have extension .SMSPEC or .FSMSPEC" := by
  exact ⟨by decide, rfl⟩

/-- Witness for C9 at a formatted spec file name. -/
theorem C9_extension_dispatch_witness :
    extensionOf "CASE.FSMSPEC" = ".FSMSPEC" ∧
    esmrySetup "CASE.FSMSPEC" = Except.ok ("CASE.FSMSPEC", true) :=
  ⟨by decide, (C9_extension_dispatch "CASE.FSMSPEC").2.1 (by decide)⟩

/-- C5 (amended): the `R` branch of `ESmry::makeKeyString`: empty key for
`num ≤ 0`; `"RORFR"` is excepted and keeps `KEYWORD:num`; keywords with
`FR`/`FT` at positions 3-4 or 4-5 unpack `num = r1 + 32768·(r2+10)` into
`KEYWORD:r1-r2`; all other region keywords give `KEYWORD:num`.  The
region-to-region example uses the keyword `"ROFR"` (which does carry `FR`
at positions 3-4) and `num = 2 + 32768·(3+10) = 425986`. -/
theorem C5_region_keys (misc : String → Bool) (nI nJ : ℤ) (kw wg : String) (num : ℤ)
    (lgr : Option LgrInfo) (hR : kw.data.head? = some 'R') :
    (num ≤ 0 → makeKeyString misc nI nJ kw wg num lgr = some "") ∧
    (0 < num → kw = "RORFR" →
       makeKeyString misc nI nJ kw wg num lgr = some (kw ++ ":" ++ toString num)) ∧
    (0 < num → kw ≠ "RORFR" →
       (csub kw 2 2 = "FR" ∨ csub kw 2 2 = "FT" ∨ csub kw 3 2 = "FR" ∨ csub kw 3 2 = "FT") →
       makeKeyString misc nI nJ kw wg num lgr =
         some (kw ++ ":" ++ toString (num % 32768) ++ "-" ++ toString (num / 32768 - 10))) ∧
    (0 < num → kw ≠ "RORFR" →
       ¬(csub kw 2 2 = "FR" ∨ csub kw 2 2 = "FT" ∨ csub kw 3 2 = "FR" ∨ csub kw 3 2 = "FT") →
       makeKeyString misc nI nJ kw wg num lgr = some (kw ++ ":" ++ toString num)) ∧
    makeKeyString misc nI nJ "ROFR" wg 425986 lgr = some "ROFR:2-3" := by
  refine ⟨?_, ?_, ?_, ?_, ?_⟩
  · intro h
    simp [makeKeyString, hR, h]
  · intro h hk
    simp [makeKeyString, hR, hk, (not_le.mpr h : ¬ num ≤ 0)]
  · intro h hk hcond
    simp [makeKeyString, hR, hk, hcond, (not_le.mpr h : ¬ num ≤ 0), splitSummaryNumber]
  · intro h hk hcond
    simp [makeKeyString, hR, hk, hcond, (not_le.mpr h : ¬ num ≤ 0)]
  · rfl

/-- Counterexample for C5 as claimed: for the keyword `"RXF"` the
positions 3-4 hold only `"F"` and 4-5 are empty, so `makeKeyString` does
not unpack a region pair, and `2 + 32768·(3+10)` is 425986, not 426242;
at `num = 426242` the result is `"RXF:426242"`, not `"RXF:2-3"`. -/
theorem C5_counterexample :
    makeKeyString (fun _ => false) 1 1 "RXF" ":+:+:+:+" 426242 none = some "RXF:426242" ∧
    (2 : ℤ) + 32768 * (3 + 10) = 425986 ∧
    "RXF:426242" ≠ "RXF:2-3" :=
  ⟨rfl, by norm_num, by decide⟩

/-- Witness for C5 at the plain region keyword `"RPR"`, `num = 1`. -/
theorem C5_region_keys_witness :
    ("RPR".data.head? = some 'R') ∧
    makeKeyString (fun _ => false) 1 1 "RPR" ":+:+:+:+" 1 none = some "RPR:1" :=
  ⟨rfl, (C5_region_keys (fun _ => false) 1 1 "RPR" ":+:+:+:+" 1 none rfl).2.2.2.1
    (by norm_num) (by decide) (by decide)⟩

/-- C6 (amended): the `B` branch of `ESmry::makeKeyString`: empty key for
`num ≤ 0`, otherwise `KEYWORD:i,j,k` where `(i,j,k)` is the 1-based
unpacking of `num` by `ESmry::ijk_from_global_index` on the summary grid
dimensions `nI, nJ`; the triple satisfies `1 ≤ i ≤ nI`, `1 ≤ j ≤ nJ`,
`1 ≤ k` and `(i-1) + (j-1)·nI + (k-1)·nI·nJ = num - 1`.  With `nx = 20`,
`ny = 10`, `num = 12675` the key is `"BPR:15,4,64"`. -/
theorem C6_block_keys (misc : String → Bool) (nI nJ : ℤ) (kw wg : String) (num : ℤ)
    (lgr : Option LgrInfo) (hB : kw.data.head? = some 'B') :
    (num ≤ 0 → makeKeyString misc nI nJ kw wg num lgr = some "") ∧
    (0 < num →
       makeKeyString misc nI nJ kw wg num lgr =
         some (kw ++ ":" ++ toString (esmry_ijk_from_global_index nI nJ num).1 ++ "," ++
               toString (esmry_ijk_from_global_index nI nJ num).2.1 ++ "," ++
               toString (esmry_ijk_from_global_index nI nJ num).2.2)) ∧
    (0 < num → 0 < nI → 0 < nJ →
       1 ≤ (esmry_ijk_from_global_index nI nJ num).1 ∧
       (esmry_ijk_from_global_index nI nJ num).1 ≤ nI ∧
       1 ≤ (esmry_ijk_from_global_index nI nJ num).2.1 ∧
       (esmry_ijk_from_global_index nI nJ num).2.1 ≤ nJ ∧
       1 ≤ (esmry_ijk_from_global_index nI nJ num).2.2 ∧
       ((esmry_ijk_from_global_index nI nJ num).1 - 1) +
         ((esmry_ijk_from_global_index nI nJ num).2.1 - 1) * nI +
         ((esmry_ijk_from_global_index nI nJ num).2.2 - 1) * (nI * nJ) = num - 1) ∧
    makeKeyString misc 20 10 "BPR" wg 12675 lgr = some "BPR:15,4,64" := by
  refine ⟨?_, ?_, ?_, ?_⟩
  · intro h
    simp [makeKeyString, hB, h]
  · intro h
    simp [makeKeyString, hB, (not_le.mpr h : ¬ num ≤ 0)]
  · intro h hI hJ
    have hg0 : 0 ≤ num - 1 := by omega
    have hm1 := Int.emod_nonneg (num - 1) (ne_of_gt hI)
    have hm2 := Int.emod_lt_of_pos (num - 1) hI
    have hdiv : 0 ≤ (num - 1) / nI := Int.ediv_nonneg hg0 (le_of_lt hI)
    have hm3 := Int.emod_nonneg ((num - 1) / nI) (ne_of_gt hJ)
    have hm4 := Int.emod_lt_of_pos ((num - 1) / nI) hJ
    have hm5 : 0 ≤ ((num - 1) / nI) / nJ := Int.ediv_nonneg hdiv (le_of_lt hJ)
    have e1 : nI * ((num - 1) / nI) + (num - 1) % nI = num - 1 := Int.ediv_add_emod _ _
    have e2 : nJ * (((num - 1) / nI) / nJ) + ((num - 1) / nI) % nJ = (num - 1) / nI :=
      Int.ediv_add_emod _ _
    simp only [esmry_ijk_from_global_index]
    refine ⟨by linarith, by linarith, by linarith, by linarith, by linarith, ?_⟩
    linear_combination e1 + nI * e2
  · rfl

/-- Counterexample for C6 as claimed: with `nx = 20`, `ny = 10` the code
unpacks `num = 12675` to the 1-based triple `(15, 4, 64)` (the claim's
`(15, 3, 63)` forgets the 1-basing of `j` and `k`). -/
theorem C6_counterexample :
    makeKeyString (fun _ => false) 20 10 "BPR" ":+:+:+:+" 12675 none = some "BPR:15,4,64" ∧
    "BPR:15,4,64" ≠ "BPR:15,3,63" :=
  ⟨rfl, by decide⟩

/-- Witness for C6 at `nI = 5`, `nJ = 4`, `num = 100`. -/
theorem C6_block_keys_witness :
    ((0 : ℤ) < 100) ∧
    makeKeyString (fun _ => false) 5 4 "BPR" ":+:+:+:+" 100 none =
      some ("BPR" ++ ":" ++ toString (esmry_ijk_from_global_index 5 4 100).1 ++ "," ++
            toString (esmry_ijk_from_global_index 5 4 100).2.1 ++ "," ++
            toString (esmry_ijk_from_global_index 5 4 100).2.2) :=
  ⟨by norm_num,
   (C6_block_keys (fun _ => false) 5 4 "BPR" ":+:+:+:+" 100 none rfl).2.1 (by norm_num)⟩

/-- C8: `ESmry::make_esmry_file` throws `std::invalid_argument` whenever
the instance was constructed with `loadBaseRunData = true`; when the
target `.ESMRY` file already exists it returns `false` writing nothing;
otherwise it writes START, optional RESTART and RSTNUM, KEYCHECK, UNITS,
RSTEP, TSTEP and one `V{n}` record per vector, and returns `true`. -/
theorem C8_make_esmry_file (s : EsmryWriteState) :
    (s.loadBaseRunData = true →
       makeEsmryFile s =
         Except.error "creating esmry file only possible when loadBaseRunData=false") ∧
    (s.loadBaseRunData = false → s.esmryExists = true →
       makeEsmryFile s = Except.ok (false, [])) ∧
    (s.loadBaseRunData = false → s.esmryExists = false →
       makeEsmryFile s = Except.ok (true,
         [EsmryRec.ints "START" (startDateVect s.startVect)]
         ++ (if s.restartRoot ≠ "" then
               [EsmryRec.strs "RESTART" [s.restartRoot], EsmryRec.ints "RSTNUM" [s.restartNum]]
             else [])
         ++ [EsmryRec.strs "KEYCHECK" s.keyword,
             EsmryRec.strs "UNITS" s.units,
             EsmryRec.ints "RSTEP" (isRstepVect s.nTstep s.seqIndex),
             EsmryRec.ints "TSTEP" s.miniSteps]
         ++ (List.range s.vectorData.length).map
              (fun n => EsmryRec.reals ("V" ++ toString n) (s.vectorData.getD n [])))) := by
  refine ⟨?_, ?_, ?_⟩
  · intro h
    simp [makeEsmryFile, h]
  · intro h1 h2
    simp [makeEsmryFile, h1, h2]
  · intro h1 h2
    simp [makeEsmryFile, h1, h2]

/-- C7 (amended): for an unformatted file, the byte offset used by
`ESmry::loadData(vectList)` to read column `p` of a binary PARAMS record
beginning at `stepOffset` is `stepOffset + (2*nFull + 1)*4 + p*4` with
`nFull = p / 1000` (each block holds `MaxBlockSizeReal / sizeOfReal = 1000`
elements framed by a 4-byte header and trailer), and the 4 bytes at that
offset are exactly the stored value of column `p`. -/
theorem C7_binary_seek_offset (xs : List ℤ) (p : ℕ) (v : ℤ) (hv : xs.get? p = some v) :
    paramSeekOffset p = (2 * (p / 1000) + 1) * 4 + p * 4 ∧
    cellAtByte (serializeParams xs) (paramSeekOffset p) = some (EclCell.data v) :=
  ⟨rfl, cellAtByte_seek_data xs p v hv⟩

/-- Witness for C7 at a three-element PARAMS record, column 2. -/
theorem C7_binary_seek_offset_witness :
    (([10, 20, 30] : List ℤ).get? 2 = some 30) ∧
    (paramSeekOffset 2 = (2 * (2 / 1000) + 1) * 4 + 2 * 4 ∧
     cellAtByte (serializeParams [10, 20, 30]) (paramSeekOffset 2) =
       some (EclCell.data 30)) :=
  ⟨by decide, C7_binary_seek_offset [10, 20, 30] 2 30 (by decide)⟩

set_option maxRecDepth 10000

/-- Counterexample for C7 as claimed: with the spec's block layout of 1000
REAL elements per block, the claimed formula `nFull = p / 250` already
breaks at `p = 250` of a 253-element record: it yields byte offset 1012,
which lands on the data cell of column 252, not on the stored value of
column 250 (the code's `nFull = p / (MaxBlockSizeReal/sizeOfReal)
= p / 1000` yields 1004, which is correct). -/
theorem C7_counterexample :
    ((List.range 253).map (fun n => Int.ofNat n)).get? 250 = some 250 ∧
    claimedParamSeekOffset 250 ≠ paramSeekOffset 250 ∧
    cellAtByte (serializeParams ((List.range 253).map (fun n => Int.ofNat n)))
        (claimedParamSeekOffset 250) ≠ some (EclCell.data 250) := by
  refine ⟨?_, by decide, by decide⟩
  rw [List.get?_eq_getElem?, List.getElem?_map,
      List.getElem?_range (by norm_num : (250 : ℕ) < 253)]
  rfl

/-- C1 (amended): for a key `k` that occupies exactly one column in every
spec file of the chain (and with the `arrayPos` pass synthesizing the same
per-column keys as the load pass, which always holds for a single spec
file), the vector produced by the per-key seek path equals the vector
produced by the bulk path, time step by time step. -/
theorem C1_loadData_equiv (specs : List SpecFileM) (steps : List SmryStep) (k : String)
    (hk : k ≠ "")
    (hstep : ∀ st ∈ steps, ∃ sp, specs.get? st.specInd = some sp ∧
       sp.kwListPos = sp.kwListLoad ∧
       sp.kwListLoad.length = st.params.length ∧
       ∃ p, sp.kwListLoad.get? p = some k ∧ ∀ q, sp.kwListLoad.get? q = some k → q = p) :
    bulkLoadKey specs steps k = some (seekLoadKey specs steps k) := by
  induction steps with
  | nil => rfl
  | cons st rest ih =>
    obtain ⟨sp, hsp, hposload, hlen, p, hp, huniq⟩ := hstep st (by simp)
    have hrest : ∀ st' ∈ rest, ∃ sp, specs.get? st'.specInd = some sp ∧
        sp.kwListPos = sp.kwListLoad ∧
        sp.kwListLoad.length = st'.params.length ∧
        ∃ p, sp.kwListLoad.get? p = some k ∧ ∀ q, sp.kwListLoad.get? q = some k → q = p :=
      fun st' h' => hstep st' (List.mem_cons_of_mem st h')
    specialize ih hrest
    have hkey : unionHasKey specs k = true := by
      rw [unionHasKey, Bool.and_eq_true]
      constructor
      · simp [hk]
      · rw [List.any_eq_true]
        refine ⟨sp, List.get?_mem hsp, ?_⟩
        exact List.elem_iff.mpr (List.get?_mem hp)
    have hplen : p < st.params.length := by
      have h1 : p < sp.kwListLoad.length := by
        by_contra hc
        rw [List.get?_eq_none.mpr (by omega)] at hp
        exact Option.noConfusion hp
      omega
    obtain ⟨v, hv⟩ : ∃ v, st.params.get? p = some v := by
      cases hg : st.params.get? p with
      | none => rw [List.get?_eq_none] at hg; omega
      | some v => exact ⟨v, rfl⟩
    have hbulk : bulkStepOf specs k st = some [v] := by
      rw [bulkStepOf, hsp, Option.some_bind]
      exact bulk_step_single sp (unionHasKey specs) st.params k p v hkey hlen hp huniq hv
    have hseek : seekStepOf specs k st = some v := by
      rw [seekStepOf, hsp, Option.some_bind, hposload,
          arrayPosCol_unique (unionHasKey specs) k sp.kwListLoad p hkey hk hp huniq,
          Option.some_bind]
      exact seekReadParam_some st.params p v hv
    cases hmm : rest.mapM (bulkStepOf specs k) with
    | none =>
      rw [bulkLoadKey, hmm] at ih
      simp at ih
    | some ls =>
      have ihe : ls.flatten.map some = seekLoadKey specs rest k := by
        rw [bulkLoadKey, hmm] at ih
        simpa using ih
      have hparts : (st :: rest).mapM (bulkStepOf specs k) = some ([v] :: ls) := by
        rw [List.mapM_cons, hbulk, hmm]
        rfl
      rw [bulkLoadKey, hparts, seekLoadKey, List.map_cons, hseek]
      simp only [Option.map_some']
      rw [show (([v] :: ls).flatten.map some) = some v :: ls.flatten.map some from rfl]
      rw [ihe]
      rfl

/-- Counterexample for C1 as claimed: base spec file with column keys
`["A"]`, child spec file with `["B", "B"]` (the key `B` occupies two
columns), one base step with PARAMS `[5]` and one child step with PARAMS
`[7, 9]`.  For key `B` the seek path appends NaN for the base step and
reads the LAST `B` column (value 9) of the child step, while the bulk path
appends nothing for the base step and reads the FIRST `B` column (value
7): the two per-key vectors differ both in length and in value. -/
theorem C1_counterexample :
    bulkLoadKey [⟨["A"], ["A"]⟩, ⟨["B", "B"], ["B", "B"]⟩]
        [⟨0, [5]⟩, ⟨1, [7, 9]⟩] "B"
      ≠ some (seekLoadKey [⟨["A"], ["A"]⟩, ⟨["B", "B"], ["B", "B"]⟩]
        [⟨0, [5]⟩, ⟨1, [7, 9]⟩] "B") := by
  decide

/-- Witness for C1: a single spec file with the single key `"A"` and one
time step with PARAMS `[7]`. -/
theorem C1_loadData_equiv_witness :
    ("A" : String) ≠ "" ∧
    bulkLoadKey [⟨["A"], ["A"]⟩] [⟨0, [7]⟩] "A" =
      some (seekLoadKey [⟨["A"], ["A"]⟩] [⟨0, [7]⟩] "A") := by
  refine ⟨by decide, C1_loadData_equiv [⟨["A"], ["A"]⟩] [⟨0, [7]⟩] "A" (by decide) ?_⟩
  intro st hst
  have hst' : st = ⟨0, [7]⟩ := by simpa using hst
  subst hst'
  refine ⟨⟨["A"], ["A"]⟩, rfl, rfl, rfl, 0, rfl, ?_⟩
  intro q hq
  cases q with
  | zero => rfl
  | succ q' => simp at hq

/-- Witness for C8: a fresh single-run state with one vector and one step. -/
theorem C8_make_esmry_file_witness :
    makeEsmryFile
      ⟨false, false, [1, 2, 2026], "", 0, ["TIME"], ["DAYS"], 1, [0], [1], [[0]]⟩ =
      Except.ok (true,
        [EsmryRec.ints "START" [1, 2, 2026, 0, 0, 0, 0],
         EsmryRec.strs "KEYCHECK" ["TIME"],
         EsmryRec.strs "UNITS" ["DAYS"],
         EsmryRec.ints "RSTEP" [1],
         EsmryRec.ints "TSTEP" [1],
         EsmryRec.reals "V0" [0]]) := by
  have h := (C8_make_esmry_file
    ⟨false, false, [1, 2, 2026], "", 0, ["TIME"], ["DAYS"], 1, [0], [1], [[0]]⟩).2.2 rfl rfl
  exact h

end OpmVerify
